import Mathlib

/- Verification of the LLM-reply extraction logic and the entry-point error
handling of the Dockerfile optimizer repository (HTTP service `app/main.py`,
command-line tool `cli.py`).

Strings are modeled as lists of characters (`List Char`).  Python's
whitespace set (`str.strip`, regex `\s`), its line-break set
(`str.splitlines`) and ASCII case conversion (`str.upper`, `re.IGNORECASE`
on ASCII patterns) are modeled explicitly; the definitions below are
translated line by line from the two Python sources. -/

namespace DockerOpt

abbrev Str := List Char

def strL (s : String) : Str := s.data

/-- Characters for which Python's `str.isspace()` is true.  This is the set
used by `str.strip()` and is also the set matched by the regex class `\s`
for `str` patterns (both are defined via `Py_UNICODE_ISSPACE`). -/
def pySpace (c : Char) : Bool :=
  c.toNat ∈ [9, 10, 11, 12, 13, 28, 29, 30, 31, 32, 0x85, 0xA0, 0x1680,
    0x2000, 0x2001, 0x2002, 0x2003, 0x2004, 0x2005, 0x2006, 0x2007,
    0x2008, 0x2009, 0x200A, 0x2028, 0x2029, 0x202F, 0x205F, 0x3000]

/-- Characters that Python's `str.splitlines()` treats as line boundaries
(`Py_UNICODE_ISLINEBREAK`); `"\r\n"` additionally counts as a single
boundary. -/
def isLineBreak (c : Char) : Bool :=
  c.toNat ∈ [10, 11, 12, 13, 28, 29, 30, 0x85, 0x2028, 0x2029]

/-- The newline character. -/
def nlc : Char := '\n'

/-- The carriage-return character. -/
def crc : Char := '\r'

/-- The backtick character (code point 96). -/
def btk : Char := Char.ofNat 96

/-- ASCII lower-casing of one character, as performed by `re.IGNORECASE`
matching against the ASCII pattern word `dockerfile`. -/
def lowerAscii (c : Char) : Char :=
  if 65 ≤ c.toNat ∧ c.toNat ≤ 90 then Char.ofNat (c.toNat + 32) else c

/-- ASCII upper-casing of one character, modeling `str.upper()` on the
characters relevant to the `"FROM "` check. -/
def upperAscii (c : Char) : Char :=
  if 97 ≤ c.toNat ∧ c.toNat ≤ 122 then Char.ofNat (c.toNat - 32) else c

/-- Remove trailing Python whitespace (`str.rstrip()`). -/
def rstripList (s : Str) : Str := (s.reverse.dropWhile pySpace).reverse

/-- Python `str.strip()`: remove leading and trailing whitespace. -/
def stripList (s : Str) : Str := rstripList (s.dropWhile pySpace)

/-- Python `s.split(pat, 1)` for a non-empty separator `pat`, reported as
`some (before, after)` for the first occurrence of `pat`, or `none` when
`pat` does not occur in `s` (in which case Python returns the one-element
list `[s]`). -/
def splitOnce (pat : Str) : Str → Option (Str × Str)
  | [] => none
  | c :: s =>
    if pat.isPrefixOf (c :: s) then some ([], (c :: s).drop pat.length)
    else
      match splitOnce pat s with
      | some (pre, post) => some (c :: pre, post)
      | none => none

def backticks : Str := strL "```"

def dockerfileWord : Str := strL "dockerfile"

def summaryDelim : Str := strL "---SUMMARY---"

def fromWord : Str := strL "FROM "

/-- Case-insensitive (ASCII) test that the second list begins with the
first. -/
def startsWithCI : Str → Str → Bool
  | [], _ => true
  | _ :: _, [] => false
  | p :: ps, c :: cs => (lowerAscii c == p) && startsWithCI ps cs

/-- One attempt of `re.search(r"```(?:dockerfile)?\s*([\s\S]*?)```", sec,
re.IGNORECASE)` at the current position: `some g` when the pattern matches
starting exactly here, where `g` is capture group 1.  The greedy optional
word and greedy `\s*` followed by the lazy group mean: after the opening
backticks, the word `dockerfile` is consumed if present, then the maximal
whitespace run, and the group extends to the first subsequent occurrence of
three backticks (the match fails if there is none — backtracking into the
word or the whitespace run cannot create one, since none of those
characters is a backtick). -/
def fencedMatchAt (s : Str) : Option Str :=
  if backticks.isPrefixOf s then
    let t := s.drop 3
    let t2 := if startsWithCI dockerfileWord t then t.drop 10 else t
    let u := t2.dropWhile pySpace
    match splitOnce backticks u with
    | some (g, _) => some g
    | none => none
  else none

/-- `re.search` over the whole string: the attempt at the leftmost position
where the fenced-block pattern matches. -/
def fencedSearch : Str → Option Str
  | [] => none
  | c :: s =>
    match fencedMatchAt (c :: s) with
    | some g => some g
    | none => fencedSearch s

/-- Prepend a character to the first line of a line list (helper for
`splitlines`). -/
def consLine (c : Char) : List Str → List Str
  | [] => [[c]]
  | l :: ls => (c :: l) :: ls

/-- Python `str.splitlines()`: split at line-boundary characters, treating
`"\r\n"` as one boundary, without a trailing empty line for a string that
ends at a boundary. -/
def splitlines : Str → List Str
  | [] => []
  | [c] => if isLineBreak c then [[]] else [[c]]
  | c :: c2 :: rest =>
    if c = crc ∧ c2 = nlc then [] :: splitlines rest
    else if isLineBreak c then [] :: splitlines (c2 :: rest)
    else consLine c (splitlines (c2 :: rest))

/-- Python `"\n".join(lines)`. -/
def joinNL : List Str → Str
  | [] => []
  | [l] => l
  | l :: l2 :: ls => l ++ nlc :: joinNL (l2 :: ls)

/-- The per-line test `ln.strip().upper().startswith("FROM ")` from both
sources. -/
def isFromLine (ln : Str) : Bool :=
  fromWord.isPrefixOf ((stripList ln).map upperAscii)

/-- `next((i for i, ln in enumerate(lines) if ln.strip().upper().startswith("FROM ")), None)`. -/
def firstFromIdx : List Str → Option Nat
  | [] => none
  | l :: ls => if isFromLine l then some 0 else (firstFromIdx ls).map (· + 1)

/-- The FROM-line scan over an already-split line list: `"\n".join` of the
lines from the first FROM line onward, stripped; the empty string (the
unchanged initial value of `dockerfile_content`) when no FROM line exists. -/
def linesResult (L : List Str) : Str :=
  match firstFromIdx L with
  | some i => stripList (joinNL (L.drop i))
  | none => []

/-- The FROM-line fallback shared by both sources, applied to the section
text: split into lines, then scan for the first FROM line. -/
def fromFallback (sec : Str) : Str :=
  linesResult (splitlines sec)

/-- `"\n"`-separated continuation of a line list (helper for reasoning
about `joinNL` over appends). -/
def joinTail : List Str → Str
  | [] => []
  | l :: ls => nlc :: joinNL (l :: ls)

/-- The fenced-block extraction with FROM-line fallback, the block of code
shared verbatim by `app/main.py` (lines 121-129 and 132-139) and `cli.py`
(lines 99-107): the stripped regex group if the fenced pattern matches,
otherwise the FROM fallback, otherwise the empty string. -/
def extractDockerfile (sec : Str) : Str :=
  match fencedSearch sec with
  | some g => stripList g
  | none => fromFallback sec

/-- The extraction in the HTTP service (`app/main.py` lines 110-143):
split on `---SUMMARY---` once; with two parts, parse the stripped first
part and strip the second as the summary; with one part, parse the raw
content and leave the summary empty.  The enclosing `try`/`except` in the
source is unreachable for this pure computation, so it is not modeled. -/
def serviceExtract (content : Str) : Str × Str :=
  match splitOnce summaryDelim content with
  | some (pre, post) => (extractDockerfile (stripList pre), stripList post)
  | none => (extractDockerfile content, [])

/-- The extraction in the CLI (`cli.py` lines 91-111): split on
`---SUMMARY---` once, keep only the first part (the whole reply when the
delimiter is absent), strip it, and parse it; the summary is discarded. -/
def cliExtract (content : Str) : Str :=
  match splitOnce summaryDelim content with
  | some (pre, _) => extractDockerfile (stripList pre)
  | none => extractDockerfile (stripList content)

/-- The parsed JSON body of an upstream 2xx reply, as far as the code
inspects it: either not a dict, or a dict with a `choices` list where each
choice is summarized by its effective message content
(`choices[i].get("message", {}).get("content", "")`, the empty string when
absent). -/
inductive ReplyData where
  | notDict : ReplyData
  | dict : List Str → ReplyData
deriving DecidableEq

/-- The `content` computation of both sources: `""` unless the body is a
dict with a non-empty `choices` list, in which case the first choice's
content. -/
def contentOf : ReplyData → Str
  | .notDict => []
  | .dict [] => []
  | .dict (c :: _) => c

/-- Abstraction of the outbound HTTP call: it may raise a timeout, raise
any other transport/parse exception (carrying the exception text), or
deliver a response with a status code, a body text and parsed JSON data. -/
inductive Upstream where
  | timeout (excText : Str)
  | transportFail (excText : Str)
  | reply (status : Nat) (body : Str) (data : ReplyData)
deriving DecidableEq

/-- Outcome of the HTTP handler: an `HTTPException` with status and detail,
or a 200 reply carrying `result` and `summary`. -/
inductive ServiceOutcome where
  | httpError (status : Nat) (detail : Str)
  | ok (result summary : Str)
deriving DecidableEq

def msgDockerfileRequired : Str := strL "dockerfile is required"

def msgKeyNotSet : Str := strL "ABACUS_API_KEY is not set"

def msgEmptyReply : Str := strL "Empty response from Abacus ChatLLM"

/-- Detail text `f"Abacus request failed: {exc}"`. -/
def abacusFailMsg (exc : Str) : Str := strL "Abacus request failed: " ++ exc

/-- The CLI text `f"API request failed: {status} - {body}"`. -/
def apiFailMsg (status : Nat) (body : Str) : Str :=
  strL "API request failed: " ++ Nat.toDigits 10 status ++ strL " - " ++ body

/-- Python truthiness of an optional string: `None` and `""` are falsy. -/
def truthyStr : Option Str → Option Str
  | none => none
  | some k => if k = [] then none else some k

/-- `args.api_key or os.getenv("ABACUS_API_KEY")` with Python `or`
semantics (a present but empty `--api-key` falls through to the
environment), normalized so that `none` means falsy. -/
def orKey (arg env : Option Str) : Option Str :=
  match arg with
  | some k => if k = [] then truthyStr env else some k
  | none => truthyStr env

/-- The HTTP handler `optimize` (`app/main.py` lines 40-143), with the
outbound call abstracted by `up`: blank input is rejected with 400, a
missing/empty `ABACUS_API_KEY` with 500, transport failures (including
timeouts and JSON-decoding failures) become 502 with the wrapped exception
text, an upstream status ≥ 400 is forwarded with the upstream body as
detail, empty reply content is 502 with a distinct message, and otherwise
the extraction result is returned. -/
def serviceOptimize (dockerfile : Str) (envKey : Option Str) (up : Upstream) :
    ServiceOutcome :=
  if stripList dockerfile = [] then .httpError 400 msgDockerfileRequired
  else
    match truthyStr envKey with
    | none => .httpError 500 msgKeyNotSet
    | some _ =>
      match up with
      | .timeout exc => .httpError 502 (abacusFailMsg exc)
      | .transportFail exc => .httpError 502 (abacusFailMsg exc)
      | .reply status body data =>
        if 400 ≤ status then .httpError status body
        else if contentOf data = [] then .httpError 502 msgEmptyReply
        else .ok (serviceExtract (contentOf data)).1 (serviceExtract (contentOf data)).2

/-- Errors raised by `optimize_dockerfile` in `cli.py`: the dedicated
timeout error, the wrapper `RuntimeError(f"Abacus request failed: {exc}")`
(which also wraps the status ≥ 400 error raised inside the `try` block),
and the distinct empty-response error raised after the `try` block. -/
inductive CliError where
  | timeoutError
  | requestFailed (excText : Str)
  | emptyResponse
deriving DecidableEq

/-- `optimize_dockerfile` (`cli.py` lines 20-111) with the outbound call
abstracted by `up`. -/
def cliOptimize (dockerfileContent apiKey : Str) (up : Upstream) :
    Except CliError Str :=
  match up with
  | .timeout _ => .error .timeoutError
  | .transportFail exc => .error (.requestFailed exc)
  | .reply status body data =>
    if 400 ≤ status then .error (.requestFailed (apiFailMsg status body))
    else if contentOf data = [] then .error .emptyResponse
    else .ok (cliExtract (contentOf data))

/-- Observable outcome of the CLI `main`: exit code 1 with a diagnostic
line on stderr, or exit code 0 with the optimized output. -/
inductive CliOutcome where
  | failure (diagnostic : Str)
  | success (output : Str)
deriving DecidableEq

def errMsgNoKey : Str := strL "Error: ABACUS_API_KEY environment variable not set"

def errMsgNoContent : Str := strL "Error: No Dockerfile content provided"

/-- The text of each CLI error as printed by `main`. -/
def cliErrText : CliError → Str
  | .timeoutError => strL "Request timeout - try with a simpler Dockerfile"
  | .requestFailed exc => strL "Abacus request failed: " ++ exc
  | .emptyResponse => strL "Empty response from Abacus ChatLLM"

/-- The CLI `main` (`cli.py` lines 114-202) after argument parsing, with
the input text already read (file/stdin handling is out of scope): the API
key is checked first, then blank input, then the optimizer runs; any raised
error becomes exit code 1 with `"Error: ..."` on stderr. -/
def cliMain (apiKeyArg envKey : Option Str) (input : Str) (up : Upstream) :
    CliOutcome :=
  match orKey apiKeyArg envKey with
  | none => .failure errMsgNoKey
  | some k =>
    if stripList input = [] then .failure errMsgNoContent
    else
      match cliOptimize input k up with
      | .error e => .failure (strL "Error: " ++ cliErrText e)
      | .ok out => .success out

/-! ### Basic list toolkit -/

theorem drop_app_le (a b : Str) (i : Nat) (h : i ≤ a.length) :
    (a ++ b).drop i = a.drop i ++ b := by
  induction a generalizing i with
  | nil =>
    have : i = 0 := by simpa using h
    simp [this]
  | cons c a ih =>
    cases i with
    | zero => simp
    | succ j => simpa using ih j (by simpa using h)

theorem drop_app_len (a b : Str) (j : Nat) :
    (a ++ b).drop (a.length + j) = b.drop j := by
  induction a with
  | nil => simp
  | cons c a ih => simpa [Nat.succ_add] using ih

theorem dropWhile_app_ne (p : Char → Bool) (a b : Str)
    (h : a.dropWhile p ≠ []) :
    (a ++ b).dropWhile p = a.dropWhile p ++ b := by
  rw [List.dropWhile_append]
  simp only [List.isEmpty_iff]
  rw [if_neg h]

theorem dropWhile_idem (p : Char → Bool) (a : Str) :
    (a.dropWhile p).dropWhile p = a.dropWhile p := by
  induction a with
  | nil => simp
  | cons c a ih =>
    by_cases h : p c
    · simpa [List.dropWhile_cons, h] using ih
    · simp [List.dropWhile_cons, h]

theorem dropWhile_eq_drop (p : Char → Bool) (a : Str) :
    a.dropWhile p = a.drop (a.takeWhile p).length := by
  induction a with
  | nil => simp
  | cons c a ih =>
    by_cases h : p c
    · simpa [List.dropWhile_cons, List.takeWhile_cons, h] using ih
    · simp [List.dropWhile_cons, List.takeWhile_cons, h]

theorem rstrip_decomp (x : Str) :
    x = rstripList x ++ (x.reverse.takeWhile pySpace).reverse ∧
      ∀ c ∈ (x.reverse.takeWhile pySpace).reverse, pySpace c = true := by
  constructor
  · have h := List.takeWhile_append_dropWhile (p := pySpace) (l := x.reverse)
    have h2 : rstripList x ++ (x.reverse.takeWhile pySpace).reverse
        = (x.reverse.takeWhile pySpace ++ x.reverse.dropWhile pySpace).reverse := by
      rw [List.reverse_append, rstripList]
    rw [h2, h, List.reverse_reverse]
  · intro c hc
    exact List.mem_takeWhile_imp (by simpa using hc)

theorem rstrip_app_ws (x q : Str) (hq : ∀ c ∈ q, pySpace c = true) :
    rstripList (x ++ q) = rstripList x := by
  unfold rstripList
  rw [List.reverse_append, List.dropWhile_append_of_pos (by simpa using hq)]

theorem stripList_app_ws (s q : Str) (hq : ∀ c ∈ q, pySpace c = true) :
    stripList (s ++ q) = stripList s := by
  unfold stripList
  by_cases h : s.dropWhile pySpace = []
  · have hs : ∀ c ∈ s, pySpace c = true := List.dropWhile_eq_nil_iff.mp h
    have : (s ++ q).dropWhile pySpace = [] := by
      rw [List.dropWhile_eq_nil_iff]
      intro c hc
      rcases List.mem_append.mp hc with h' | h'
      · exact hs c h'
      · exact hq c h'
    rw [this, h]
  · rw [dropWhile_app_ne _ _ _ h, rstrip_app_ws _ _ hq]

theorem stripList_ws_cons (c : Char) (s : Str) (hc : pySpace c = true) :
    stripList (c :: s) = stripList s := by
  unfold stripList
  rw [List.dropWhile_cons_of_pos hc]

theorem stripList_app_ws_left (q s : Str) (hq : ∀ c ∈ q, pySpace c = true) :
    stripList (q ++ s) = stripList s := by
  induction q with
  | nil => simp
  | cons c t ih =>
    rw [List.cons_append, stripList_ws_cons _ _ (hq c (by simp))]
    exact ih (fun c hc => hq c (by simp [hc]))

theorem stripList_all_ws (s : Str) (hs : ∀ c ∈ s, pySpace c = true) :
    stripList s = [] := by
  unfold stripList
  rw [List.dropWhile_eq_nil_iff.mpr hs]
  rfl

theorem stripList_dropWhile (s : Str) :
    stripList (s.dropWhile pySpace) = stripList s := by
  unfold stripList
  rw [dropWhile_idem]

/-! ### isPrefixOf toolkit -/

theorem isPrefixOf_append_self (a b : Str) : a.isPrefixOf (a ++ b) = true := by
  induction a with
  | nil => simp [List.isPrefixOf]
  | cons c a ih => simpa [List.isPrefixOf] using ih

theorem isPrefixOf_cons_false (p c : Char) (ps l : Str) (h : p ≠ c) :
    (p :: ps).isPrefixOf (c :: l) = false := by
  simp [List.isPrefixOf, h]

theorem isPrefixOf_nil_false (p : Char) (ps : Str) :
    (p :: ps).isPrefixOf [] = false := rfl

theorem isPrefixOf_of_append_left (pat xs ys : Str) (h : pat.length ≤ xs.length) :
    pat.isPrefixOf (xs ++ ys) = pat.isPrefixOf xs := by
  induction pat generalizing xs with
  | nil => simp [List.isPrefixOf]
  | cons p ps ih =>
    cases xs with
    | nil => simp at h
    | cons x xs' =>
      simp only [List.cons_append, List.isPrefixOf, List.append_eq]
      rw [ih xs' (by simpa using h)]

theorem mem_of_prefix_spill (pat xs ys : Str) (c : Char)
    (h : pat.isPrefixOf (xs ++ c :: ys) = true) (hlen : xs.length < pat.length) :
    c ∈ pat := by
  induction xs generalizing pat with
  | nil =>
    cases pat with
    | nil => simp at hlen
    | cons p ps =>
      simp only [List.nil_append, List.isPrefixOf, List.append_eq, Bool.and_eq_true,
        beq_iff_eq] at h
      simp [h.1]
  | cons x xs' ih =>
    cases pat with
    | nil => simp at hlen
    | cons p ps =>
      simp only [List.cons_append, List.isPrefixOf, List.append_eq, Bool.and_eq_true] at h
      exact List.mem_cons_of_mem _ (ih ps h.2 (by simpa using hlen))

theorem no_prefix_in_clean (p0 : Char) (ps w rest : Str)
    (hw : ∀ c ∈ w, c ≠ p0) :
    ∀ i, i < w.length → (p0 :: ps).isPrefixOf ((w ++ rest).drop i) = false := by
  induction w with
  | nil => intro i hi; simp at hi
  | cons c w' ih =>
    intro i hi
    cases i with
    | zero =>
      simp only [List.drop_zero, List.cons_append]
      exact isPrefixOf_cons_false _ _ _ _ (fun hpc => (hw c (by simp)) hpc.symm)
    | succ j =>
      simp only [List.cons_append, List.drop_succ_cons]
      exact ih (fun d hd => hw d (by simp [hd])) j (by simpa using hi)

/-! ### splitOnce toolkit -/

theorem splitOnce_none_iff (pat : Str) (hp : pat ≠ []) (s : Str) :
    splitOnce pat s = none ↔ ∀ i, pat.isPrefixOf (s.drop i) = false := by
  induction s with
  | nil =>
    simp only [splitOnce, List.drop_nil, true_iff]
    intro i
    cases pat with
    | nil => exact absurd rfl hp
    | cons p ps => rfl
  | cons c s ih =>
    constructor
    · intro h i
      simp only [splitOnce] at h
      by_cases hpre : pat.isPrefixOf (c :: s) = true
      · rw [if_pos hpre] at h; exact absurd h (by simp)
      · rw [if_neg hpre] at h
        cases i with
        | zero =>
          simp only [List.drop_zero]
          exact Bool.eq_false_iff.mpr hpre
        | succ j =>
          simp only [List.drop_succ_cons]
          refine (ih.mp ?_) j
          cases hsp : splitOnce pat s with
          | none => rfl
          | some pq => rw [hsp] at h; rcases pq with ⟨a, b⟩; simp at h
    · intro h
      simp only [splitOnce]
      rw [if_neg (by have h0 := h 0; simp only [List.drop_zero] at h0; simp [h0])]
      have : splitOnce pat s = none := ih.mpr (fun j => by
        have := h (j + 1)
        simpa only [List.drop_succ_cons] using this)
      rw [this]

theorem splitOnce_append (pat a t : Str)
    (h : ∀ i, i < a.length → pat.isPrefixOf ((a ++ t).drop i) = false) :
    splitOnce pat (a ++ t) =
      (splitOnce pat t).map (fun pq => (a ++ pq.1, pq.2)) := by
  induction a with
  | nil =>
    simp only [List.nil_append]
    cases splitOnce pat t with
    | none => rfl
    | some pq => rcases pq with ⟨x, y⟩; simp
  | cons c a' ih =>
    have h0 : pat.isPrefixOf (c :: (a' ++ t)) = false := by
      have := h 0 (by simp)
      simpa only [List.cons_append, List.drop_zero] using this
    simp only [List.cons_append, splitOnce, List.append_eq]
    rw [if_neg (show ¬(pat.isPrefixOf (c :: (a' ++ t)) = true) by simp [h0])]
    rw [ih (fun i hi => by
      have := h (i + 1) (by simpa using hi)
      simpa only [List.cons_append, List.drop_succ_cons] using this)]
    cases splitOnce pat t with
    | none => rfl
    | some pq => rcases pq with ⟨x, y⟩; simp

theorem splitOnce_self_append (pat b : Str) (hp : pat ≠ []) :
    splitOnce pat (pat ++ b) = some ([], b) := by
  cases pat with
  | nil => exact absurd rfl hp
  | cons p ps =>
    have hpre : (p :: ps).isPrefixOf (p :: (ps ++ b)) = true :=
      isPrefixOf_append_self (p :: ps) b
    simp only [List.cons_append, splitOnce, List.append_eq]
    rw [if_pos hpre]
    have hdrop : (p :: (ps ++ b)).drop (p :: ps).length = b := by
      have := List.drop_left (p :: ps) b
      simpa using this
    rw [hdrop]

theorem splitOnce_some_decomp (pat s pre post : Str)
    (h : splitOnce pat s = some (pre, post)) :
    s = pre ++ pat ++ post := by
  induction s generalizing pre with
  | nil => simp [splitOnce] at h
  | cons c s ih =>
    simp only [splitOnce] at h
    by_cases hpre : pat.isPrefixOf (c :: s) = true
    · rw [if_pos hpre] at h
      simp only [Option.some.injEq, Prod.mk.injEq] at h
      obtain ⟨hpre', hpost⟩ := h
      have hp : pat <+: (c :: s) := (List.isPrefixOf_iff_prefix).mp hpre
      obtain ⟨tl, htl⟩ := hp
      have hdrop : (c :: s).drop pat.length = tl := by
        rw [← htl, List.drop_left]
      rw [← hpre', ← hpost, hdrop, List.nil_append, htl]
    · rw [if_neg hpre] at h
      cases hsp : splitOnce pat s with
      | none => rw [hsp] at h; simp at h
      | some pq =>
        rcases pq with ⟨a, b⟩
        rw [hsp] at h
        simp only [Option.some.injEq, Prod.mk.injEq] at h
        obtain ⟨ha, hb⟩ := h
        have hdec := ih a (by rw [hsp, hb])
        rw [← ha, ← hb]
        simp only [List.cons_append]
        rw [hb, ← hdec]

theorem splitOnce_some_min (pat s pre post : Str)
    (h : splitOnce pat s = some (pre, post)) :
    ∀ a b, s = a ++ pat ++ b → pre.length ≤ a.length := by
  induction s generalizing pre with
  | nil => simp [splitOnce] at h
  | cons c s ih =>
    intro a b hs
    simp only [splitOnce] at h
    by_cases hpre : pat.isPrefixOf (c :: s) = true
    · rw [if_pos hpre] at h
      simp only [Option.some.injEq, Prod.mk.injEq] at h
      rw [← h.1]
      simp
    · rw [if_neg hpre] at h
      cases a with
      | nil =>
        exfalso
        simp only [List.nil_append] at hs
        rw [hs] at hpre
        exact hpre (isPrefixOf_append_self pat b)
      | cons a0 a' =>
        cases hsp : splitOnce pat s with
        | none => rw [hsp] at h; simp at h
        | some pq =>
          rcases pq with ⟨x, y⟩
          rw [hsp] at h
          simp only [Option.some.injEq, Prod.mk.injEq] at h
          have hs' : s = a' ++ pat ++ b := by
            have h2 := hs
            simp only [List.cons_append, List.append_assoc, List.cons.injEq] at h2
            simpa [List.append_assoc] using h2.2
          have := ih x (by rw [hsp, h.2]) a' b hs'
          rw [← h.1]
          simpa using this

/-! ### The fenced-block regex -/

theorem backticks_cons : backticks = btk :: btk :: btk :: [] := by decide

theorem splitOnce_all_ws_none (s : Str) (hs : ∀ c ∈ s, pySpace c = true) :
    splitOnce backticks s = none := by
  induction s with
  | nil => rfl
  | cons c s ih =>
    have h0 : backticks.isPrefixOf (c :: s) = false := by
      rw [backticks_cons]
      exact isPrefixOf_cons_false _ _ _ _ (by
        intro h
        have := hs c (by simp)
        rw [← h] at this
        exact absurd this (by decide))
    simp only [splitOnce]
    rw [if_neg (show ¬(backticks.isPrefixOf (c :: s) = true) by simp [h0])]
    rw [ih (fun d hd => hs d (by simp [hd]))]

theorem fenced_core (X B : Str) (hX : splitOnce backticks X = none) :
    ∃ g, splitOnce backticks ((X ++ nlc :: (backticks ++ B)).dropWhile pySpace)
        = some (g, B) ∧ stripList g = stripList X := by
  by_cases hX' : X.dropWhile pySpace = []
  · have hws : ∀ c ∈ X, pySpace c = true := List.dropWhile_eq_nil_iff.mp hX'
    refine ⟨[], ?_, ?_⟩
    · rw [List.dropWhile_append_of_pos hws,
        List.dropWhile_cons_of_pos (show pySpace nlc = true from by decide)]
      have hshape : backticks ++ B = btk :: (strL "``" ++ B) := rfl
      rw [hshape, List.dropWhile_cons_of_neg (show ¬(pySpace btk = true) from by decide),
        ← hshape]
      exact splitOnce_self_append backticks B (by decide)
    · rw [stripList_all_ws X hws]
      rfl
  · rw [dropWhile_app_ne _ _ _ hX']
    have hshape : X.dropWhile pySpace ++ nlc :: (backticks ++ B)
        = (X.dropWhile pySpace ++ [nlc]) ++ (backticks ++ B) := by simp
    rw [hshape]
    have hnone : ∀ j, backticks.isPrefixOf (X.drop j) = false :=
      (splitOnce_none_iff backticks (by decide) X).mp hX
    have hX'drop : ∀ i, (X.dropWhile pySpace).drop i
        = X.drop ((X.takeWhile pySpace).length + i) := by
      intro i
      rw [dropWhile_eq_drop, List.drop_drop]
    have harg : ∀ i, i < (X.dropWhile pySpace ++ [nlc]).length →
        backticks.isPrefixOf
          (((X.dropWhile pySpace ++ [nlc]) ++ (backticks ++ B)).drop i) = false := by
      intro i hi
      rw [List.append_assoc]
      by_cases hlt : i < (X.dropWhile pySpace).length
      · rw [drop_app_le _ _ i (le_of_lt hlt)]
        by_cases hlen : 3 ≤ ((X.dropWhile pySpace).drop i).length
        · rw [isPrefixOf_of_append_left _ _ _
            (by rw [show backticks.length = 3 from by decide]; exact hlen)]
          rw [hX'drop i]
          exact hnone _
        · refine Bool.eq_false_iff.mpr (fun htrue => ?_)
          have hc : nlc ∈ backticks := by
            refine mem_of_prefix_spill backticks ((X.dropWhile pySpace).drop i)
              (backticks ++ B) nlc ?_ ?_
            · exact htrue
            · rw [show backticks.length = 3 from by decide]
              omega
          exact absurd hc (by decide)
      · have hieq : i = (X.dropWhile pySpace).length := by
          simp only [List.length_append, List.length_cons, List.length_nil] at hi
          omega
        subst hieq
        have hdrop : (X.dropWhile pySpace ++ ([nlc] ++ (backticks ++ B))).drop
            (X.dropWhile pySpace).length = [nlc] ++ (backticks ++ B) := by
          have := drop_app_len (X.dropWhile pySpace) ([nlc] ++ (backticks ++ B)) 0
          simpa using this
        rw [hdrop]
        rw [backticks_cons]
        exact isPrefixOf_cons_false _ _ _ _ (by decide)
    rw [splitOnce_append backticks _ _ harg,
      splitOnce_self_append backticks B (by decide)]
    refine ⟨X.dropWhile pySpace ++ [nlc], by simp, ?_⟩
    rw [stripList_app_ws _ [nlc] (by
      intro c hc
      simp only [List.mem_singleton] at hc
      subst hc
      decide)]
    exact stripList_dropWhile X

theorem fencedMatchAt_eq (s : Str) (h : backticks.isPrefixOf s = true) :
    fencedMatchAt s =
      (match splitOnce backticks
          ((if startsWithCI dockerfileWord (s.drop 3) then (s.drop 3).drop 10
            else s.drop 3).dropWhile pySpace) with
        | some (g, _) => some g
        | none => none) := by
  unfold fencedMatchAt
  rw [if_pos h]

theorem startsWithCI_self_app (w r : Str) (hw : ∀ c ∈ w, lowerAscii c = c) :
    startsWithCI w (w ++ r) = true := by
  induction w with
  | nil => rfl
  | cons c w' ih =>
    simp only [List.cons_append, startsWithCI]
    rw [hw c (by simp)]
    simp only [beq_self_eq_true, Bool.true_and]
    exact ih (fun d hd => hw d (by simp [hd]))

theorem fencedMatchAt_opener_word (X B : Str) (hX : splitOnce backticks X = none) :
    ∃ g, fencedMatchAt
        (backticks ++ (dockerfileWord ++ (nlc :: (X ++ nlc :: (backticks ++ B)))))
        = some g ∧ stripList g = stripList X := by
  obtain ⟨g, hg, hstrip⟩ := fenced_core X B hX
  refine ⟨g, ?_, hstrip⟩
  rw [fencedMatchAt_eq _ (isPrefixOf_append_self backticks _)]
  rw [List.drop_left' (show backticks.length = 3 from by decide)]
  rw [startsWithCI_self_app dockerfileWord _ (by decide)]
  rw [if_pos rfl]
  rw [List.drop_left' (show dockerfileWord.length = 10 from by decide)]
  rw [List.dropWhile_cons_of_pos (show pySpace nlc = true from by decide)]
  rw [hg]

theorem fencedMatchAt_opener_plain (X B : Str) (hX : splitOnce backticks X = none) :
    ∃ g, fencedMatchAt (backticks ++ (nlc :: (X ++ nlc :: (backticks ++ B))))
        = some g ∧ stripList g = stripList X := by
  obtain ⟨g, hg, hstrip⟩ := fenced_core X B hX
  refine ⟨g, ?_, hstrip⟩
  rw [fencedMatchAt_eq _ (isPrefixOf_append_self backticks _)]
  rw [List.drop_left' (show backticks.length = 3 from by decide)]
  have hci : startsWithCI dockerfileWord (nlc :: (X ++ nlc :: (backticks ++ B)))
      = false := by
    rw [show dockerfileWord = 'd' :: strL "ockerfile" from by decide]
    simp only [startsWithCI]
    rw [show (lowerAscii nlc == 'd') = false from by decide]
    simp
  rw [hci]
  rw [if_neg (by simp)]
  rw [List.dropWhile_cons_of_pos (show pySpace nlc = true from by decide)]
  rw [hg]

theorem fencedMatchAt_non_btk (c : Char) (s : Str) (hc : c ≠ btk) :
    fencedMatchAt (c :: s) = none := by
  have h0 : backticks.isPrefixOf (c :: s) = false := by
    rw [backticks_cons]
    exact isPrefixOf_cons_false _ _ _ _ (fun h => hc h.symm)
  unfold fencedMatchAt
  rw [if_neg (show ¬(backticks.isPrefixOf (c :: s) = true) by simp [h0])]

theorem fencedSearch_cons_eq (c : Char) (s : Str) :
    fencedSearch (c :: s) =
      match fencedMatchAt (c :: s) with
      | some g => some g
      | none => fencedSearch s := rfl

theorem fencedSearch_clean_app (A r : Str) (hA : ∀ c ∈ A, c ≠ btk) :
    fencedSearch (A ++ r) = fencedSearch r := by
  induction A with
  | nil => rfl
  | cons c A' ih =>
    rw [List.cons_append, fencedSearch_cons_eq,
      fencedMatchAt_non_btk c _ (hA c (by simp))]
    exact ih (fun d hd => hA d (by simp [hd]))

theorem fencedSearch_of_matchAt (c : Char) (s : Str) (g : Str)
    (h : fencedMatchAt (c :: s) = some g) : fencedSearch (c :: s) = some g := by
  rw [fencedSearch_cons_eq, h]

theorem fencedSearch_none_of_no_ticks (s : Str)
    (h : splitOnce backticks s = none) : fencedSearch s = none := by
  have h' : ∀ i, backticks.isPrefixOf (s.drop i) = false :=
    (splitOnce_none_iff backticks (by decide) s).mp h
  clear h
  induction s with
  | nil => rfl
  | cons c s ih =>
    rw [fencedSearch_cons_eq]
    have h0 : fencedMatchAt (c :: s) = none := by
      unfold fencedMatchAt
      rw [if_neg (by
        have := h' 0
        simp only [List.drop_zero] at this
        simp [this])]
    rw [h0]
    exact ih (fun i => by have := h' (i + 1); simpa using this)

/-! ### Invariance of the fenced-block search under stripping -/

theorem lowerAscii_of_pySpace (c : Char) (h : pySpace c = true) :
    lowerAscii c = c := by
  have hn : ¬(65 ≤ c.toNat ∧ c.toNat ≤ 90) := by
    simp [pySpace] at h
    omega
  unfold lowerAscii
  rw [if_neg hn]

theorem ne_of_space_mismatch (c d : Char) (hc : pySpace c = true)
    (hd : pySpace d = false) : c ≠ d := by
  intro h
  rw [h] at hc
  rw [hc] at hd
  exact absurd hd (by simp)

theorem prefix_app_ws_indep : ∀ (pat : Str), (∀ c ∈ pat, pySpace c = false) →
    ∀ (q : Str), (∀ c ∈ q, pySpace c = true) →
    ∀ (t : Str), pat.isPrefixOf (t ++ q) = pat.isPrefixOf t := by
  intro pat
  induction pat with
  | nil => intro _ q _ t; simp [List.isPrefixOf]
  | cons p ps ih =>
    intro hpat q hq t
    cases t with
    | nil =>
      cases q with
      | nil => simp
      | cons c q' =>
        simp only [List.nil_append, List.isPrefixOf]
        have hne : (p == c) = false := beq_eq_false_iff_ne.mpr
          (fun h => (ne_of_space_mismatch c p (hq c (by simp))
            (hpat p (by simp))) h.symm)
        simp [hne]
    | cons a t' =>
      simp only [List.cons_append, List.isPrefixOf, List.append_eq]
      rw [ih (fun c hc => hpat c (by simp [hc])) q hq t']

theorem startsWithCI_app_ws_indep : ∀ (w : Str), (∀ c ∈ w, pySpace c = false) →
    ∀ (q : Str), (∀ c ∈ q, pySpace c = true) →
    ∀ (t : Str), startsWithCI w (t ++ q) = startsWithCI w t := by
  intro w
  induction w with
  | nil => intro _ q _ t; simp [startsWithCI]
  | cons p ps ih =>
    intro hw q hq t
    cases t with
    | nil =>
      cases q with
      | nil => simp
      | cons c q' =>
        simp only [List.nil_append, startsWithCI]
        have hlc : lowerAscii c = c := lowerAscii_of_pySpace c (hq c (by simp))
        have hne : (lowerAscii c == p) = false := by
          rw [hlc]
          exact beq_eq_false_iff_ne.mpr
            (ne_of_space_mismatch c p (hq c (by simp)) (hw p (by simp)))
        simp [hne]
    | cons a t' =>
      simp only [List.cons_append, startsWithCI, List.append_eq]
      rw [ih (fun c hc => hw c (by simp [hc])) q hq t']

theorem startsWithCI_length_le : ∀ (w s : Str), startsWithCI w s = true →
    w.length ≤ s.length := by
  intro w
  induction w with
  | nil => intro s _; simp
  | cons p ps ih =>
    intro s h
    cases s with
    | nil => simp [startsWithCI] at h
    | cons c cs =>
      simp only [startsWithCI, Bool.and_eq_true] at h
      have := ih cs h.2
      simp only [List.length_cons]
      omega

theorem isPrefixOf_length_le (pat s : Str) (h : pat.isPrefixOf s = true) :
    pat.length ≤ s.length :=
  (List.isPrefixOf_iff_prefix.mp h).length_le

theorem splitOnce_bt_app_ws (u q : Str) (hq : ∀ c ∈ q, pySpace c = true) :
    splitOnce backticks (u ++ q)
      = (splitOnce backticks u).map (fun pq => (pq.1, pq.2 ++ q)) := by
  induction u with
  | nil =>
    rw [List.nil_append, splitOnce_all_ws_none q hq]
    rfl
  | cons c u' ih =>
    have hbtw : ∀ d ∈ backticks, pySpace d = false := by decide
    by_cases hpre : backticks.isPrefixOf (c :: u') = true
    · have hpre2 : backticks.isPrefixOf (c :: (u' ++ q)) = true := by
        rw [show c :: (u' ++ q) = (c :: u') ++ q from rfl,
          prefix_app_ws_indep backticks hbtw q hq (c :: u')]
        exact hpre
      rw [show (c :: u') ++ q = c :: (u' ++ q) from rfl]
      simp only [splitOnce]
      rw [if_pos hpre2, if_pos hpre]
      have hlen : backticks.length ≤ (c :: u').length :=
        isPrefixOf_length_le _ _ hpre
      rw [show c :: (u' ++ q) = (c :: u') ++ q from rfl,
        drop_app_le (c :: u') q backticks.length hlen]
      rfl
    · have hpre2 : backticks.isPrefixOf (c :: (u' ++ q)) = false := by
        rw [show c :: (u' ++ q) = (c :: u') ++ q from rfl,
          prefix_app_ws_indep backticks hbtw q hq (c :: u')]
        exact Bool.eq_false_iff.mpr hpre
      rw [show (c :: u') ++ q = c :: (u' ++ q) from rfl]
      simp only [splitOnce]
      rw [if_neg (by simp [hpre2]), if_neg hpre]
      rw [ih]
      cases splitOnce backticks u' with
      | none => rfl
      | some pq => rcases pq with ⟨a, b⟩; rfl

theorem splitOnce_bt_dropWhile_app (x q : Str) (hq : ∀ c ∈ q, pySpace c = true) :
    (match splitOnce backticks ((x ++ q).dropWhile pySpace) with
      | some (g, _) => some g
      | none => none)
    = (match splitOnce backticks (x.dropWhile pySpace) with
      | some (g, _) => some g
      | none => (none : Option Str)) := by
  by_cases hx : x.dropWhile pySpace = []
  · rw [List.dropWhile_append_of_pos (List.dropWhile_eq_nil_iff.mp hx),
      List.dropWhile_eq_nil_iff.mpr hq, hx]
  · rw [dropWhile_app_ne _ _ _ hx, splitOnce_bt_app_ws (x.dropWhile pySpace) q hq]
    cases splitOnce backticks (x.dropWhile pySpace) with
    | none => rfl
    | some pq => rcases pq with ⟨a, b⟩; rfl

theorem fencedMatchAt_app_ws (t q : Str) (hq : ∀ c ∈ q, pySpace c = true) :
    fencedMatchAt (t ++ q) = fencedMatchAt t := by
  have hbtw : ∀ d ∈ backticks, pySpace d = false := by decide
  have hdfw : ∀ d ∈ dockerfileWord, pySpace d = false := by decide
  by_cases hpre : backticks.isPrefixOf t = true
  · have hpre2 : backticks.isPrefixOf (t ++ q) = true := by
      rw [prefix_app_ws_indep backticks hbtw q hq t]
      exact hpre
    rw [fencedMatchAt_eq _ hpre2, fencedMatchAt_eq _ hpre]
    have h3 : 3 ≤ t.length := by
      have := isPrefixOf_length_le _ _ hpre
      rw [show backticks.length = 3 from by decide] at this
      exact this
    rw [drop_app_le t q 3 h3]
    rw [startsWithCI_app_ws_indep dockerfileWord hdfw q hq (t.drop 3)]
    by_cases hci : startsWithCI dockerfileWord (t.drop 3) = true
    · rw [if_pos hci, if_pos hci]
      have h10 : 10 ≤ (t.drop 3).length := by
        have := startsWithCI_length_le dockerfileWord (t.drop 3) hci
        rw [show dockerfileWord.length = 10 from by decide] at this
        exact this
      rw [drop_app_le (t.drop 3) q 10 h10]
      exact splitOnce_bt_dropWhile_app _ q hq
    · rw [if_neg hci, if_neg hci]
      exact splitOnce_bt_dropWhile_app _ q hq
  · have hpre2 : backticks.isPrefixOf (t ++ q) = false := by
      rw [prefix_app_ws_indep backticks hbtw q hq t]
      exact Bool.eq_false_iff.mpr hpre
    have e1 : fencedMatchAt (t ++ q) = none := by
      unfold fencedMatchAt
      rw [if_neg (by simp [hpre2])]
    have e2 : fencedMatchAt t = none := by
      unfold fencedMatchAt
      rw [if_neg hpre]
    rw [e1, e2]

theorem fencedSearch_app_ws (t q : Str) (hq : ∀ c ∈ q, pySpace c = true) :
    fencedSearch (t ++ q) = fencedSearch t := by
  induction t with
  | nil =>
    rw [List.nil_append]
    exact fencedSearch_none_of_no_ticks q (splitOnce_all_ws_none q hq)
  | cons c t' ih =>
    rw [List.cons_append, fencedSearch_cons_eq,
      show c :: (t' ++ q) = (c :: t') ++ q from rfl,
      fencedMatchAt_app_ws (c :: t') q hq]
    rw [fencedSearch_cons_eq]
    cases fencedMatchAt (c :: t') with
    | none => exact ih
    | some g => rfl

theorem fencedSearch_dropWhile (s : Str) :
    fencedSearch (s.dropWhile pySpace) = fencedSearch s := by
  induction s with
  | nil => rfl
  | cons c s' ih =>
    by_cases hc : pySpace c = true
    · rw [List.dropWhile_cons_of_pos hc, fencedSearch_cons_eq,
        fencedMatchAt_non_btk c s'
          (ne_of_space_mismatch c btk hc (by decide))]
      exact ih
    · rw [List.dropWhile_cons_of_neg hc]

theorem fencedSearch_stripList (s : Str) :
    fencedSearch (stripList s) = fencedSearch s := by
  obtain ⟨hdec, hws⟩ := rstrip_decomp (s.dropWhile pySpace)
  calc fencedSearch (stripList s)
      = fencedSearch (stripList s
          ++ ((s.dropWhile pySpace).reverse.takeWhile pySpace).reverse) :=
        (fencedSearch_app_ws _ _ hws).symm
    _ = fencedSearch (s.dropWhile pySpace) := by
        rw [stripList, ← hdec]
    _ = fencedSearch s := fencedSearch_dropWhile s

/-! ### Invariance of the FROM-line fallback under stripping -/

theorem splitlines_crlf (s : Str) : splitlines (crc :: nlc :: s) = [] :: splitlines s := by
  cases s with
  | nil => simp [splitlines]
  | cons c2 rest => simp [splitlines]

theorem splitlines_break (c : Char) (s : Str) (hb : isLineBreak c = true)
    (hnc : c = crc → s.head? ≠ some nlc) : splitlines (c :: s) = [] :: splitlines s := by
  cases s with
  | nil => simp [splitlines, hb]
  | cons c2 rest =>
    have hcond : ¬(c = crc ∧ c2 = nlc) := by
      rintro ⟨h1, h2⟩
      exact (hnc h1) (by simp [h2])
    simp [splitlines, hcond, hb]

theorem splitlines_nonbreak (c : Char) (s : Str) (hb : isLineBreak c = false) :
    splitlines (c :: s) = consLine c (splitlines s) := by
  cases s with
  | nil => simp [splitlines, hb, consLine]
  | cons c2 rest =>
    have hcond : ¬(c = crc ∧ c2 = nlc) := by
      rintro ⟨h1, _⟩
      rw [h1] at hb
      exact absurd hb (by decide)
    simp [splitlines, hcond, hb]

theorem isFromLine_nil : isFromLine [] = false := by decide

theorem isFromLine_ws_cons (c : Char) (l : Str) (hc : pySpace c = true) :
    isFromLine (c :: l) = isFromLine l := by
  unfold isFromLine
  rw [stripList_ws_cons c l hc]

theorem isFromLine_app_ws (l q : Str) (hq : ∀ c ∈ q, pySpace c = true) :
    isFromLine (l ++ q) = isFromLine l := by
  unfold isFromLine
  rw [stripList_app_ws l q hq]

theorem isFromLine_all_ws (l : Str) (h : ∀ c ∈ l, pySpace c = true) :
    isFromLine l = false := by
  unfold isFromLine
  rw [stripList_all_ws l h]
  decide

theorem joinNL_cons (l : Str) (ls : List Str) (h : ls ≠ []) :
    joinNL (l :: ls) = l ++ nlc :: joinNL ls := by
  cases ls with
  | nil => exact absurd rfl h
  | cons l2 ls' => rfl

theorem joinNL_cons_cons (c : Char) (l : Str) (ls : List Str) :
    joinNL ((c :: l) :: ls) = c :: joinNL (l :: ls) := by
  cases ls with
  | nil => rfl
  | cons l2 ls' => rfl

theorem joinNL_all_ws (ls : List Str) (h : ∀ l ∈ ls, ∀ c ∈ l, pySpace c = true) :
    ∀ c ∈ joinNL ls, pySpace c = true := by
  induction ls with
  | nil => simp [joinNL]
  | cons l ls' ih =>
    cases ls' with
    | nil => simpa [joinNL] using h l (by simp)
    | cons l2 ls'' =>
      intro c hc
      rw [joinNL_cons l _ (by simp)] at hc
      rcases List.mem_append.mp hc with h1 | h1
      · exact h l (by simp) c h1
      · rcases List.mem_cons.mp h1 with h2 | h2
        · subst h2; decide
        · exact ih (fun l' hl' => h l' (by simp [hl'])) c h2

theorem joinTail_all_ws (ls : List Str) (h : ∀ l ∈ ls, ∀ c ∈ l, pySpace c = true) :
    ∀ c ∈ joinTail ls, pySpace c = true := by
  cases ls with
  | nil => simp [joinTail]
  | cons l ls' =>
    intro c hc
    simp only [joinTail] at hc
    rcases List.mem_cons.mp hc with h2 | h2
    · subst h2; decide
    · exact joinNL_all_ws _ h c h2

theorem firstFromIdx_none_of (L : List Str) (h : ∀ l ∈ L, isFromLine l = false) :
    firstFromIdx L = none := by
  induction L with
  | nil => rfl
  | cons l ls ih =>
    simp only [firstFromIdx]
    rw [if_neg (by simp [h l (by simp)])]
    rw [ih (fun l' hl' => h l' (by simp [hl']))]
    rfl

theorem firstFromIdx_lt_length (L : List Str) (i : Nat)
    (h : firstFromIdx L = some i) : i < L.length := by
  induction L generalizing i with
  | nil => simp [firstFromIdx] at h
  | cons l ls ih =>
    simp only [firstFromIdx] at h
    by_cases hl : isFromLine l = true
    · rw [if_pos hl] at h
      simp only [Option.some.injEq] at h
      subst h
      simp
    · rw [if_neg hl] at h
      cases hidx : firstFromIdx ls with
      | none => rw [hidx] at h; simp at h
      | some j =>
        rw [hidx] at h
        simp at h
        have := ih j hidx
        simp only [List.length_cons]
        omega

theorem splitlines_all_ws : ∀ (q : Str), (∀ c ∈ q, pySpace c = true) →
    ∀ l ∈ splitlines q, ∀ c ∈ l, pySpace c = true := by
  intro q
  induction q using splitlines.induct with
  | case1 => intro _; simp [splitlines]
  | case2 c hb =>
    intro hq l hl
    simp only [splitlines, if_pos hb] at hl
    simp only [List.mem_singleton] at hl
    subst hl
    simp
  | case3 c hb =>
    intro hq l hl
    simp only [splitlines, if_neg hb] at hl
    simp only [List.mem_singleton] at hl
    subst hl
    intro d hd
    simp only [List.mem_singleton] at hd
    subst hd
    exact hq _ (by simp)
  | case4 c c2 rest hcr ih =>
    intro hq
    rw [hcr.1, hcr.2, splitlines_crlf]
    intro l hl
    rcases List.mem_cons.mp hl with h2 | h2
    · subst h2; simp
    · exact ih (fun d hd => hq d (by simp [hd])) l h2
  | case5 c c2 rest hcr hb ih =>
    intro hq
    rw [splitlines_break c _ hb (fun h1 h2 => hcr ⟨h1, by simpa using h2⟩)]
    intro l hl
    rcases List.mem_cons.mp hl with h2 | h2
    · subst h2; simp
    · exact ih (fun d hd => hq d (by simp [hd])) l h2
  | case6 c c2 rest hcr hb ih =>
    intro hq
    rw [splitlines_nonbreak c _ (Bool.eq_false_iff.mpr hb)]
    have ih' := ih (fun d hd => hq d (by simp [hd]))
    intro l hl
    cases hsp : splitlines (c2 :: rest) with
    | nil =>
      rw [hsp] at hl
      simp only [consLine, List.mem_singleton] at hl
      subst hl
      intro d hd
      simp only [List.mem_singleton] at hd
      subst hd
      exact hq _ (by simp)
    | cons l0 ls =>
      rw [hsp] at hl ih'
      simp only [consLine] at hl
      rcases List.mem_cons.mp hl with h2 | h2
      · subst h2
        intro d hd
        rcases List.mem_cons.mp hd with h3 | h3
        · subst h3; exact hq _ (by simp)
        · exact ih' l0 (by simp) d h3
      · exact ih' l (by simp [h2])

theorem splitlines_app_ws (q : Str) (hq : ∀ c ∈ q, pySpace c = true) :
    ∀ s : Str, s ≠ [] →
      ∃ init last ext rest,
        splitlines s = init ++ [last] ∧
        splitlines (s ++ q) = init ++ (last ++ ext) :: rest ∧
        (∀ c ∈ ext, pySpace c = true) ∧
        (∀ l ∈ rest, ∀ c ∈ l, pySpace c = true) := by
  intro s
  induction s using splitlines.induct with
  | case1 => intro h; exact absurd rfl h
  | case2 c hb =>
    intro _
    have hsl : splitlines [c] = [[]] := by simp [splitlines, hb]
    by_cases hcr : c = crc ∧ q.head? = some nlc
    · obtain ⟨h1, h2⟩ := hcr
      cases q with
      | nil => simp at h2
      | cons c2 q2 =>
        have h2' : c2 = nlc := by simpa using h2
        subst h1 h2'
        refine ⟨[], [], [], splitlines q2, hsl, ?_, by simp, ?_⟩
        · rw [List.singleton_append, splitlines_crlf]
          rfl
        · exact splitlines_all_ws q2 (fun d hd => hq d (by simp [hd]))
    · refine ⟨[], [], [], splitlines q, hsl, ?_, by simp, splitlines_all_ws q hq⟩
      rw [List.singleton_append, splitlines_break c q hb (fun h1 h2 => hcr ⟨h1, h2⟩)]
      rfl
  | case3 c hb =>
    intro _
    rw [List.singleton_append, splitlines_nonbreak c q (Bool.eq_false_iff.mpr hb)]
    cases hsq : splitlines q with
    | nil =>
      refine ⟨[], [c], [], [], ?_, ?_, by simp, by simp⟩
      · simp [splitlines, hb]
      · simp [consLine]
    | cons l ls =>
      refine ⟨[], [c], l, ls, ?_, ?_, ?_, ?_⟩
      · simp [splitlines, hb]
      · simp [consLine]
      · exact splitlines_all_ws q hq l (by simp [hsq])
      · intro l' hl'
        exact splitlines_all_ws q hq l' (by simp [hsq, hl'])
  | case4 c c2 rest hcr ih =>
    intro _
    rw [hcr.1, hcr.2]
    rw [show (crc :: nlc :: rest) ++ q = crc :: nlc :: (rest ++ q) from rfl,
      splitlines_crlf, splitlines_crlf]
    by_cases hrest : rest = []
    · subst hrest
      refine ⟨[], [], [], splitlines q, rfl, rfl, by simp,
        splitlines_all_ws q hq⟩
    · obtain ⟨init, last, ext, rest', h1, h2, h3, h4⟩ := ih hrest
      exact ⟨[] :: init, last, ext, rest', by rw [h1]; rfl, by rw [h2]; rfl, h3, h4⟩
  | case5 c c2 rest hcr hb ih =>
    intro _
    have hnc : ∀ r : Str, c = crc → (c2 :: r).head? ≠ some nlc :=
      fun r h1 h2 => hcr ⟨h1, by simpa using h2⟩
    rw [splitlines_break c _ hb (hnc rest)]
    rw [show (c :: c2 :: rest) ++ q = c :: ((c2 :: rest) ++ q) from rfl,
      splitlines_break c _ hb (by
        rw [show (c2 :: rest) ++ q = c2 :: (rest ++ q) from rfl]
        exact hnc (rest ++ q))]
    obtain ⟨init, last, ext, rest', h1, h2, h3, h4⟩ := ih (by simp)
    exact ⟨[] :: init, last, ext, rest', by rw [h1]; rfl, by rw [h2]; rfl, h3, h4⟩
  | case6 c c2 rest hcr hb ih =>
    intro _
    rw [splitlines_nonbreak c _ (Bool.eq_false_iff.mpr hb)]
    rw [show (c :: c2 :: rest) ++ q = c :: ((c2 :: rest) ++ q) from rfl,
      splitlines_nonbreak c _ (Bool.eq_false_iff.mpr hb)]
    obtain ⟨init, last, ext, rest', h1, h2, h3, h4⟩ := ih (by simp)
    rw [h1, h2]
    cases init with
    | nil =>
      refine ⟨[], c :: last, ext, rest', by simp [consLine], ?_, h3, h4⟩
      simp [consLine]
    | cons i0 init' =>
      refine ⟨(c :: i0) :: init', last, ext, rest', by simp [consLine], ?_, h3, h4⟩
      simp [consLine]

theorem firstFromIdx_pad (init : List Str) (last ext : Str) (rest : List Str)
    (hext : ∀ c ∈ ext, pySpace c = true)
    (hrest : ∀ l ∈ rest, isFromLine l = false) :
    firstFromIdx (init ++ (last ++ ext) :: rest) = firstFromIdx (init ++ [last]) := by
  induction init with
  | nil =>
    simp only [List.nil_append, firstFromIdx]
    rw [isFromLine_app_ws last ext hext, firstFromIdx_none_of rest hrest]
  | cons l0 init' ih =>
    simp only [List.cons_append, firstFromIdx, List.append_eq]
    rw [ih]

theorem joinNL_pad (D : List Str) (l0 ext : Str) (rest : List Str) :
    joinNL (D ++ (l0 ++ ext) :: rest)
      = joinNL (D ++ [l0]) ++ (ext ++ joinTail rest) := by
  induction D with
  | nil =>
    cases rest with
    | nil => simp [joinNL, joinTail]
    | cons r rs =>
      rw [List.nil_append, List.nil_append,
        joinNL_cons _ _ (by simp), joinTail]
      simp [joinNL, List.append_assoc]
  | cons d D' ih =>
    rw [List.cons_append, List.cons_append,
      joinNL_cons d _ (by simp), joinNL_cons d _ (by simp), ih]
    simp [List.append_assoc]

theorem drop_app_le' {α : Type} (a b : List α) (i : Nat) (h : i ≤ a.length) :
    (a ++ b).drop i = a.drop i ++ b := by
  induction a generalizing i with
  | nil =>
    have : i = 0 := by simpa using h
    simp [this]
  | cons c a ih =>
    cases i with
    | zero => simp
    | succ j => simpa using ih j (by simpa using h)

theorem linesResult_pad (init : List Str) (last ext : Str) (rest : List Str)
    (hext : ∀ c ∈ ext, pySpace c = true)
    (hrest : ∀ l ∈ rest, ∀ c ∈ l, pySpace c = true) :
    linesResult (init ++ (last ++ ext) :: rest) = linesResult (init ++ [last]) := by
  unfold linesResult
  rw [firstFromIdx_pad init last ext rest hext
    (fun l hl => isFromLine_all_ws l (hrest l hl))]
  cases hidx : firstFromIdx (init ++ [last]) with
  | none => rfl
  | some i =>
    have hle : i ≤ init.length := by
      have := firstFromIdx_lt_length _ _ hidx
      simp only [List.length_append, List.length_cons, List.length_nil] at this
      omega
    show stripList (joinNL ((init ++ (last ++ ext) :: rest).drop i))
        = stripList (joinNL ((init ++ [last]).drop i))
    rw [drop_app_le' init _ i hle, drop_app_le' init [last] i hle]
    rw [joinNL_pad (init.drop i) last ext rest]
    rw [stripList_app_ws _ _ (by
      intro c hc
      rcases List.mem_append.mp hc with h1 | h1
      · exact hext c h1
      · exact joinTail_all_ws rest hrest c h1)]

theorem linesResult_nil_cons (L : List Str) :
    linesResult ([] :: L) = linesResult L := by
  unfold linesResult
  simp only [firstFromIdx]
  rw [if_neg (by simp [isFromLine_nil])]
  cases firstFromIdx L with
  | none => rfl
  | some i => rfl

theorem linesResult_consLine_ws (c : Char) (hc : pySpace c = true) (L : List Str) :
    linesResult (consLine c L) = linesResult L := by
  cases L with
  | nil =>
    unfold linesResult
    simp only [consLine, firstFromIdx]
    rw [if_neg (by simp [isFromLine_ws_cons c [] hc, isFromLine_nil])]
    rfl
  | cons l ls =>
    unfold linesResult
    simp only [consLine, firstFromIdx]
    rw [isFromLine_ws_cons c l hc]
    by_cases hl : isFromLine l = true
    · rw [if_pos hl]
      show stripList (joinNL (((c :: l) :: ls).drop 0))
          = stripList (joinNL ((l :: ls).drop 0))
      simp only [List.drop_zero]
      rw [joinNL_cons_cons, stripList_ws_cons c _ hc]
    · rw [if_neg hl]
      cases firstFromIdx ls with
      | none => rfl
      | some i => rfl

theorem fromFallback_ws_cons (c : Char) (s : Str) (hc : pySpace c = true) :
    fromFallback (c :: s) = fromFallback s := by
  unfold fromFallback
  by_cases hb : isLineBreak c = true
  · by_cases hcr : c = crc ∧ s.head? = some nlc
    · obtain ⟨h1, h2⟩ := hcr
      cases s with
      | nil => simp at h2
      | cons c2 s' =>
        have h2' : c2 = nlc := by simpa using h2
        subst h1 h2'
        rw [splitlines_crlf,
          splitlines_break nlc s' (by decide) (fun h => absurd h (by decide)),
          linesResult_nil_cons]
    · rw [splitlines_break c s hb (fun h1 h2 => hcr ⟨h1, h2⟩), linesResult_nil_cons]
  · rw [splitlines_nonbreak c s (Bool.eq_false_iff.mpr hb),
      linesResult_consLine_ws c hc]

theorem fromFallback_app_ws (s q : Str) (hq : ∀ c ∈ q, pySpace c = true) :
    fromFallback (s ++ q) = fromFallback s := by
  by_cases hs : s = []
  · subst hs
    rw [List.nil_append]
    unfold fromFallback linesResult
    rw [firstFromIdx_none_of _
      (fun l hl => isFromLine_all_ws l (splitlines_all_ws q hq l hl))]
    rfl
  · obtain ⟨init, last, ext, rest, h1, h2, hext, hrest⟩ := splitlines_app_ws q hq s hs
    unfold fromFallback
    rw [h1, h2]
    exact linesResult_pad init last ext rest hext hrest

theorem fromFallback_dropWhile (s : Str) :
    fromFallback (s.dropWhile pySpace) = fromFallback s := by
  induction s with
  | nil => rfl
  | cons c s' ih =>
    by_cases hc : pySpace c = true
    · rw [List.dropWhile_cons_of_pos hc, fromFallback_ws_cons c s' hc]
      exact ih
    · rw [List.dropWhile_cons_of_neg hc]

theorem fromFallback_stripList (s : Str) :
    fromFallback (stripList s) = fromFallback s := by
  obtain ⟨hdec, hws⟩ := rstrip_decomp (s.dropWhile pySpace)
  calc fromFallback (stripList s)
      = fromFallback (stripList s
          ++ ((s.dropWhile pySpace).reverse.takeWhile pySpace).reverse) :=
        (fromFallback_app_ws _ _ hws).symm
    _ = fromFallback (s.dropWhile pySpace) := by
        rw [stripList, ← hdec]
    _ = fromFallback s := fromFallback_dropWhile s

theorem extractDockerfile_stripList (s : Str) :
    extractDockerfile (stripList s) = extractDockerfile s := by
  unfold extractDockerfile
  rw [fencedSearch_stripList s]
  cases fencedSearch s with
  | some g => rfl
  | none => exact fromFallback_stripList s

/-! ### Small facts about the extraction pipeline -/

theorem summaryDelim_ne_nil : summaryDelim ≠ [] := by decide

theorem serviceExtract_snd_some (s pre post : Str)
    (h : splitOnce summaryDelim s = some (pre, post)) :
    (serviceExtract s).2 = stripList post := by
  simp [serviceExtract, h]

theorem serviceExtract_snd_none (s : Str)
    (h : splitOnce summaryDelim s = none) :
    (serviceExtract s).2 = [] := by
  simp [serviceExtract, h]

theorem splitOnce_none_not_decomp (pat : Str) (hp : pat ≠ []) (s : Str)
    (h : splitOnce pat s = none) : ∀ a b, s ≠ a ++ pat ++ b := by
  intro a b hs
  have hfalse := (splitOnce_none_iff pat hp s).mp h a.length
  rw [hs, List.append_assoc, List.drop_left] at hfalse
  rw [isPrefixOf_append_self] at hfalse
  exact absurd hfalse (by simp)

theorem serviceExtract_some (s pre post : Str)
    (h : splitOnce summaryDelim s = some (pre, post)) :
    serviceExtract s = (extractDockerfile (stripList pre), stripList post) := by
  simp [serviceExtract, h]

theorem serviceExtract_none (s : Str) (h : splitOnce summaryDelim s = none) :
    serviceExtract s = (extractDockerfile s, []) := by
  simp [serviceExtract, h]

theorem cliExtract_some (s pre post : Str)
    (h : splitOnce summaryDelim s = some (pre, post)) :
    cliExtract s = extractDockerfile (stripList pre) := by
  simp [cliExtract, h]

theorem cliExtract_none (s : Str) (h : splitOnce summaryDelim s = none) :
    cliExtract s = extractDockerfile (stripList s) := by
  simp [cliExtract, h]

theorem rstrip_app_non_ws (y : Str) (d : Char) (hd : pySpace d = false) :
    rstripList (y ++ [d]) = y ++ [d] := by
  unfold rstripList
  rw [List.reverse_append]
  simp only [List.reverse_cons, List.reverse_nil, List.nil_append, List.singleton_append]
  rw [List.dropWhile_cons_of_neg (by simp [hd])]
  simp

/-- No occurrence of `---SUMMARY---` can start strictly inside the section
`` ```dockerfile\n<X>\n```\n `` when `X` itself contains no occurrence: the
fixed surrounding characters are never `'-'`, and an occurrence spilling
out of `X` would have to contain the newline that follows it. -/
theorem no_summary_starts_before (X rest : Str)
    (hXs : splitOnce summaryDelim X = none) :
    ∀ i, i < (strL "```dockerfile\n" ++ X ++ strL "\n```\n").length →
      summaryDelim.isPrefixOf
        (((strL "```dockerfile\n" ++ X ++ strL "\n```\n") ++ rest).drop i) = false := by
  intro i hi
  have h14 : (strL "```dockerfile\n").length = 14 := by decide
  have h5 : (strL "\n```\n").length = 5 := by decide
  have hlen : i < 14 + X.length + 5 := by
    simp only [List.length_append, h14, h5] at hi
    omega
  have hA : (strL "```dockerfile\n" ++ X ++ strL "\n```\n") ++ rest
      = strL "```dockerfile\n" ++ (X ++ (strL "\n```\n" ++ rest)) := by
    simp [List.append_assoc]
  rw [hA]
  by_cases h1 : i < 14
  · rw [show summaryDelim = '-' :: strL "--SUMMARY---" from by decide]
    exact no_prefix_in_clean '-' (strL "--SUMMARY---") (strL "```dockerfile\n")
      (X ++ (strL "\n```\n" ++ rest)) (by decide) i (by rw [h14]; exact h1)
  · by_cases h2 : i < 14 + X.length
    · obtain ⟨j, rfl⟩ : ∃ j, i = 14 + j := ⟨i - 14, by omega⟩
      rw [show (14 : Nat) + j = (strL "```dockerfile\n").length + j from by rw [h14]]
      rw [drop_app_len]
      rw [drop_app_le X _ j (by omega)]
      by_cases hlen2 : 13 ≤ (X.drop j).length
      · rw [isPrefixOf_of_append_left _ _ _
          (by rw [show summaryDelim.length = 13 from by decide]; exact hlen2)]
        exact (splitOnce_none_iff summaryDelim (by decide) X).mp hXs j
      · refine Bool.eq_false_iff.mpr (fun htrue => ?_)
        rw [show strL "\n```\n" ++ rest = nlc :: (strL "```\n" ++ rest) from rfl] at htrue
        have hc : nlc ∈ summaryDelim :=
          mem_of_prefix_spill summaryDelim (X.drop j) _ nlc htrue
            (by rw [show summaryDelim.length = 13 from by decide]; omega)
        exact absurd hc (by decide)
    · obtain ⟨j, rfl⟩ : ∃ j, i = (14 + X.length) + j := ⟨i - (14 + X.length), by omega⟩
      have hj5 : j < 5 := by omega
      have hA2 : strL "```dockerfile\n" ++ (X ++ (strL "\n```\n" ++ rest))
          = (strL "```dockerfile\n" ++ X) ++ (strL "\n```\n" ++ rest) := by
        simp [List.append_assoc]
      rw [hA2]
      rw [show 14 + X.length + j = (strL "```dockerfile\n" ++ X).length + j from by
        simp only [List.length_append, h14]]
      rw [drop_app_len]
      rw [show summaryDelim = '-' :: strL "--SUMMARY---" from by decide]
      exact no_prefix_in_clean '-' (strL "--SUMMARY---") (strL "\n```\n") rest
        (by decide) j (by rw [h5]; exact hj5)

theorem cliExtract_eq_serviceExtract_fst (s : Str) :
    cliExtract s = (serviceExtract s).1 := by
  cases hsp : splitOnce summaryDelim s with
  | none =>
    rw [cliExtract_none s hsp, serviceExtract_none s hsp]
    exact extractDockerfile_stripList s
  | some pq =>
    rcases pq with ⟨pre, post⟩
    rw [cliExtract_some s pre post hsp, serviceExtract_some s pre post hsp]

/-! ### Claim theorems: delimiter split, entry points, totality -/

/-- C5: for every raw reply, the split on the literal delimiter
`---SUMMARY---` happens at most once, at its first occurrence: when the
delimiter occurs, the text decomposes as `pre ++ delimiter ++ post` with
`pre` minimal, the returned summary is `post` trimmed, and the Dockerfile
section is the text before the delimiter; when the delimiter is absent the
returned summary is the empty string (and no decomposition exists). -/
theorem C5_split_at_most_once (s : Str) :
    (∀ pre post, splitOnce summaryDelim s = some (pre, post) →
      s = pre ++ summaryDelim ++ post ∧
      (∀ a b, s = a ++ summaryDelim ++ b → pre.length ≤ a.length) ∧
      (serviceExtract s).2 = stripList post) ∧
    (splitOnce summaryDelim s = none →
      (serviceExtract s).2 = [] ∧ ∀ a b, s ≠ a ++ summaryDelim ++ b) := by
  constructor
  · intro pre post h
    exact ⟨splitOnce_some_decomp _ _ _ _ h, splitOnce_some_min _ _ _ _ h,
      serviceExtract_snd_some _ _ _ h⟩
  · intro h
    exact ⟨serviceExtract_snd_none _ h,
      splitOnce_none_not_decomp _ summaryDelim_ne_nil _ h⟩

theorem C5_witness :
    (serviceExtract (strL "A---SUMMARY--- B")).2 = stripList (strL " B") :=
  ((C5_split_at_most_once (strL "A---SUMMARY--- B")).1 (strL "A") (strL " B")
    (by decide)).2.2

/-- C6: a request whose Dockerfile text is empty or whitespace-only is
rejected by both entry points before the outbound call is consulted (the
outcome is the same for every possible upstream behavior `up`): the HTTP
handler fails with status 400, and the CLI exits with code 1 and a
diagnostic on stderr. -/
theorem C6_blank_input_rejected (d : Str) (h : stripList d = []) :
    (∀ envKey up, serviceOptimize d envKey up
        = ServiceOutcome.httpError 400 msgDockerfileRequired) ∧
    (∀ a e up, ∃ diag, cliMain a e d up = CliOutcome.failure diag) := by
  constructor
  · intro envKey up
    simp [serviceOptimize, h]
  · intro a e up
    cases horKey : orKey a e with
    | none => exact ⟨errMsgNoKey, by simp [cliMain, horKey]⟩
    | some k => exact ⟨errMsgNoContent, by simp [cliMain, horKey, h]⟩

theorem C6_witness :
    serviceOptimize (strL "  \n ") none (Upstream.reply 200 [] ReplyData.notDict)
        = ServiceOutcome.httpError 400 msgDockerfileRequired ∧
    ∃ diag, cliMain none none (strL "  \n ") (Upstream.reply 200 [] ReplyData.notDict)
        = CliOutcome.failure diag :=
  ⟨(C6_blank_input_rejected (strL "  \n ") (by decide)).1 none _,
   (C6_blank_input_rejected (strL "  \n ") (by decide)).2 none none _⟩

/-- C7 counterexample: the claim "for every invocation in which no API key
is available the HTTP handler fails with status 500" is false as stated:
when the Dockerfile text is blank as well, the handler's earlier input
check fires and the failure status is 400, not 500. -/
theorem C7_counterexample :
    serviceOptimize (strL "") none (Upstream.reply 200 [] ReplyData.notDict)
        = ServiceOutcome.httpError 400 msgDockerfileRequired ∧
    ServiceOutcome.httpError 400 msgDockerfileRequired
        ≠ ServiceOutcome.httpError 500 msgKeyNotSet := by
  constructor
  · rfl
  · decide

/-- C7 (amended): when no API key is available (no CLI override and the
environment variable unset or empty), both entry points fail before the
outbound call is consulted; the HTTP handler fails with status 500 provided
the Dockerfile text is non-blank (blank input is rejected earlier with
400), and the CLI exits with code 1 and a diagnostic on stderr regardless
of input. -/
theorem C7_missing_key (e : Option Str) (he : truthyStr e = none) :
    (∀ d, stripList d ≠ [] → ∀ up,
      serviceOptimize d e up = ServiceOutcome.httpError 500 msgKeyNotSet) ∧
    (∀ input up, cliMain none e input up = CliOutcome.failure errMsgNoKey) := by
  constructor
  · intro d hd up
    simp [serviceOptimize, hd, he]
  · intro input up
    simp [cliMain, orKey, he]

theorem C7_witness :
    serviceOptimize (strL "FROM a") (some []) (Upstream.reply 200 [] ReplyData.notDict)
        = ServiceOutcome.httpError 500 msgKeyNotSet ∧
    cliMain none (some []) (strL "FROM a") (Upstream.reply 200 [] ReplyData.notDict)
        = CliOutcome.failure errMsgNoKey :=
  ⟨(C7_missing_key (some []) (by decide)).1 (strL "FROM a") (by decide) _,
   (C7_missing_key (some []) (by decide)).2 (strL "FROM a") _⟩

/-- C8: an upstream reply that succeeds at transport level (status below
400) but has an empty `choices` list, or whose first choice carries empty
content, makes the service fail with 502 and the dedicated empty-response
detail — distinguishable from the 502 produced for transport errors — and
makes the CLI raise the dedicated empty-response error, distinct from the
timeout and wrapped-transport errors. -/
theorem C8_empty_reply_failure (d k : Str) (hd : stripList d ≠ []) (hk : k ≠ [])
    (status : Nat) (hst : status < 400) (body : Str) :
    serviceOptimize d (some k) (Upstream.reply status body (ReplyData.dict []))
        = ServiceOutcome.httpError 502 msgEmptyReply ∧
    (∀ rest, serviceOptimize d (some k)
        (Upstream.reply status body (ReplyData.dict ([] :: rest)))
        = ServiceOutcome.httpError 502 msgEmptyReply) ∧
    (∀ exc, msgEmptyReply ≠ abacusFailMsg exc) ∧
    cliOptimize d k (Upstream.reply status body (ReplyData.dict []))
        = Except.error CliError.emptyResponse ∧
    (∀ rest, cliOptimize d k (Upstream.reply status body (ReplyData.dict ([] :: rest)))
        = Except.error CliError.emptyResponse) ∧
    (∀ exc, CliError.emptyResponse ≠ CliError.requestFailed exc) ∧
    CliError.emptyResponse ≠ CliError.timeoutError := by
  have hnle : ¬ 400 ≤ status := by omega
  have hmsg : ∀ exc, msgEmptyReply ≠ abacusFailMsg exc := by
    intro exc h
    have h2 : abacusFailMsg exc = 'A' :: (strL "bacus request failed: " ++ exc) := rfl
    rw [show msgEmptyReply = 'E' :: strL "mpty response from Abacus ChatLLM" from rfl,
      h2] at h
    exact absurd (List.cons.inj h).1 (by decide)
  refine ⟨?_, ?_, hmsg, ?_, ?_, ?_, ?_⟩
  · simp [serviceOptimize, hd, truthyStr, hk, hnle, contentOf]
  · intro rest
    simp [serviceOptimize, hd, truthyStr, hk, hnle, contentOf]
  · simp [cliOptimize, hnle, contentOf]
  · intro rest
    simp [cliOptimize, hnle, contentOf]
  · intro exc h
    cases h
  · intro h
    cases h

theorem C8_witness :
    serviceOptimize (strL "FROM a") (some (strL "key"))
        (Upstream.reply 200 (strL "") (ReplyData.dict []))
        = ServiceOutcome.httpError 502 msgEmptyReply ∧
    cliOptimize (strL "FROM a") (strL "key")
        (Upstream.reply 200 (strL "") (ReplyData.dict []))
        = Except.error CliError.emptyResponse :=
  ⟨(C8_empty_reply_failure (strL "FROM a") (strL "key") (by decide) (by decide)
      200 (by decide) (strL "")).1,
   (C8_empty_reply_failure (strL "FROM a") (strL "key") (by decide) (by decide)
      200 (by decide) (strL "")).2.2.2.1⟩

/-- C10: the extraction routines are total and deterministic: every raw
reply string is mapped to some (dockerfile, summary) pair / dockerfile
string (the Lean embedding is a total function, and the `try`/`except`
wrapper in the sources is unreachable for this pure computation), and equal
inputs yield equal outputs. -/
theorem C10_extraction_total (s : Str) :
    (∃ p : Str × Str, serviceExtract s = p) ∧
    (∃ d : Str, cliExtract s = d) ∧
    (∀ t, t = s → serviceExtract t = serviceExtract s ∧ cliExtract t = cliExtract s) :=
  ⟨⟨_, rfl⟩, ⟨_, rfl⟩, fun t ht => by rw [ht]; exact ⟨rfl, rfl⟩⟩

theorem C10_witness :
    serviceExtract (strL "x") = serviceExtract (strL "x") ∧
    cliExtract (strL "x") = cliExtract (strL "x") :=
  (C10_extraction_total (strL "x")).2.2 (strL "x") rfl

/-- C2 counterexample: for a reply containing none of the markers (no
delimiter, no fenced block, no FROM line), extraction does not return the
raw reply text: `dockerfile_content` keeps its initial value `""` (the
raw-reply fallback exists only in the unreachable exception handler), so
the result is the empty string. -/
theorem C2_counterexample :
    (serviceExtract (strL "no match here")).1 ≠ strL "no match here" ∧
    serviceExtract (strL "no match here") = ([], []) ∧
    cliExtract (strL "no match here") = [] := by
  refine ⟨?_, by decide, by decide⟩
  decide

/-- C1: for a well-formed reply `` ```dockerfile\n<X>\n```\n---SUMMARY---\n<Y> ``
— well-formedness meaning the fenced content `X` contains neither a closing
`` ``` `` nor the delimiter `---SUMMARY---` — extraction returns exactly
`(X, Y)` with surrounding whitespace trimmed from each component, in the
service, and the trimmed `X` in the CLI. -/
theorem C1_wellformed_reply (X Y : Str)
    (hXs : splitOnce summaryDelim X = none)
    (hXb : splitOnce backticks X = none) :
    serviceExtract (strL "```dockerfile\n" ++ X ++ strL "\n```\n---SUMMARY---\n" ++ Y)
      = (stripList X, stripList Y) ∧
    cliExtract (strL "```dockerfile\n" ++ X ++ strL "\n```\n---SUMMARY---\n" ++ Y)
      = stripList X := by
  have hsh : strL "```dockerfile\n" ++ X ++ strL "\n```\n---SUMMARY---\n" ++ Y
      = (strL "```dockerfile\n" ++ X ++ strL "\n```\n") ++ (summaryDelim ++ (nlc :: Y)) := by
    rw [show strL "\n```\n---SUMMARY---\n" = strL "\n```\n" ++ (summaryDelim ++ [nlc])
      from by decide]
    simp [List.append_assoc]
  rw [hsh]
  have hsplit : splitOnce summaryDelim
      ((strL "```dockerfile\n" ++ X ++ strL "\n```\n") ++ (summaryDelim ++ (nlc :: Y)))
      = some (strL "```dockerfile\n" ++ X ++ strL "\n```\n", nlc :: Y) := by
    rw [splitOnce_append summaryDelim _ _ (no_summary_starts_before X _ hXs)]
    rw [splitOnce_self_append summaryDelim _ (by decide)]
    simp
  have hpre1 : strL "```dockerfile\n" ++ X ++ strL "\n```\n"
      = (strL "```dockerfile\n" ++ X ++ strL "\n```") ++ [nlc] := by
    rw [show strL "\n```\n" = strL "\n```" ++ [nlc] from by decide]
    simp [List.append_assoc]
  have hz : strL "```dockerfile\n" ++ X ++ strL "\n```"
      = btk :: (strL "``dockerfile\n" ++ X ++ strL "\n```") := rfl
  have hzz : btk :: (strL "``dockerfile\n" ++ X ++ strL "\n```")
      = (btk :: (strL "``dockerfile\n" ++ X ++ strL "\n``")) ++ [btk] := by
    rw [show strL "\n```" = strL "\n``" ++ [btk] from by decide]
    simp [List.append_assoc]
  have hop : btk :: (strL "``dockerfile\n" ++ X ++ strL "\n```")
      = backticks ++ (dockerfileWord ++ (nlc :: (X ++ nlc :: (backticks ++ [])))) := by
    rw [show strL "``dockerfile\n" = strL "``" ++ (dockerfileWord ++ [nlc]) from by decide,
      show strL "\n```" = nlc :: backticks from by decide,
      show (backticks : Str) = btk :: strL "``" from by decide]
    simp [List.append_assoc]
  have hsec : stripList (strL "```dockerfile\n" ++ X ++ strL "\n```\n")
      = backticks ++ (dockerfileWord ++ (nlc :: (X ++ nlc :: (backticks ++ [])))) := by
    rw [hpre1, stripList_app_ws _ [nlc] (by
      intro c hc
      simp only [List.mem_singleton] at hc
      subst hc
      decide)]
    rw [hz]
    unfold stripList
    rw [List.dropWhile_cons_of_neg (show ¬(pySpace btk = true) from by decide)]
    rw [hzz, rstrip_app_non_ws _ btk (by decide), ← hzz]
    exact hop
  obtain ⟨g, hg, hstrip⟩ := fencedMatchAt_opener_word X [] hXb
  have hsearch : fencedSearch
      (backticks ++ (dockerfileWord ++ (nlc :: (X ++ nlc :: (backticks ++ [])))))
      = some g := by
    have hcons : backticks ++ (dockerfileWord ++ (nlc :: (X ++ nlc :: (backticks ++ []))))
        = btk :: (strL "``" ++ (dockerfileWord ++ (nlc :: (X ++ nlc :: (backticks ++ [])))))
        := rfl
    rw [hcons]
    apply fencedSearch_of_matchAt
    rw [← hcons]
    exact hg
  have hed : extractDockerfile (stripList (strL "```dockerfile\n" ++ X ++ strL "\n```\n"))
      = stripList X := by
    rw [hsec]
    unfold extractDockerfile
    rw [hsearch]
    exact hstrip
  refine ⟨?_, ?_⟩
  · rw [serviceExtract_some _ _ _ hsplit, hed, stripList_ws_cons nlc Y (by decide)]
  · rw [cliExtract_some _ _ _ hsplit, hed]

theorem C1_witness :
    serviceExtract (strL "```dockerfile\n" ++ strL "FROM a"
        ++ strL "\n```\n---SUMMARY---\n" ++ strL " ok ")
      = (strL "FROM a", strL "ok") :=
  ((C1_wellformed_reply (strL "FROM a") (strL " ok ") (by decide) (by decide)).1).trans
    (by decide)

/-- C3: for a reply with no `---SUMMARY---` delimiter that contains a
fenced block `` ```\n<X>\n``` `` (the text before the block containing no
backtick, and `X` containing no closing `` ``` ``), extraction returns the
pair (`X` trimmed, `""`): the fenced content as the dockerfile and an empty
summary. -/
theorem C3_fenced_no_delimiter (A X B : Str)
    (hA : ∀ c ∈ A, c ≠ btk)
    (hX : splitOnce backticks X = none)
    (hS : splitOnce summaryDelim (A ++ strL "```\n" ++ X ++ strL "\n```" ++ B) = none) :
    serviceExtract (A ++ strL "```\n" ++ X ++ strL "\n```" ++ B) = (stripList X, []) ∧
    cliExtract (A ++ strL "```\n" ++ X ++ strL "\n```" ++ B) = stripList X := by
  have hsh : A ++ strL "```\n" ++ X ++ strL "\n```" ++ B
      = A ++ (backticks ++ (nlc :: (X ++ nlc :: (backticks ++ B)))) := by
    rw [show strL "```\n" = backticks ++ [nlc] from by decide,
      show strL "\n```" = nlc :: (backticks ++ []) from by decide]
    simp [List.append_assoc]
  obtain ⟨g, hg, hstrip⟩ := fencedMatchAt_opener_plain X B hX
  have hsearch : fencedSearch (A ++ (backticks ++ (nlc :: (X ++ nlc :: (backticks ++ B)))))
      = some g := by
    rw [fencedSearch_clean_app A _ hA]
    have hcons : backticks ++ (nlc :: (X ++ nlc :: (backticks ++ B)))
        = btk :: (strL "``" ++ (nlc :: (X ++ nlc :: (backticks ++ B)))) := rfl
    rw [hcons]
    apply fencedSearch_of_matchAt
    rw [← hcons]
    exact hg
  have hed : extractDockerfile (A ++ strL "```\n" ++ X ++ strL "\n```" ++ B)
      = stripList X := by
    rw [hsh]
    unfold extractDockerfile
    rw [hsearch]
    exact hstrip
  constructor
  · rw [serviceExtract_none _ hS, hed]
  · rw [cliExtract_none _ hS, extractDockerfile_stripList, hed]

theorem C3_witness :
    serviceExtract (strL "intro\n" ++ strL "```\n" ++ strL "FROM x\nRUN y"
        ++ strL "\n```" ++ strL "\nend")
      = (strL "FROM x\nRUN y", []) :=
  ((C3_fenced_no_delimiter (strL "intro\n") (strL "FROM x\nRUN y") (strL "\nend")
      (by decide) (by decide) (by decide)).1).trans (by decide)

/-- C4: for a reply with neither the `---SUMMARY---` delimiter nor any
fenced-block backticks, but whose line list contains a FROM line (index `i`
being the first), extraction returns the trimmed text from that line to the
end of the section, and an empty summary. -/
theorem C4_from_line_fallback (s : Str) (i : Nat)
    (hS : splitOnce summaryDelim s = none)
    (hB : splitOnce backticks s = none)
    (hF : firstFromIdx (splitlines s) = some i) :
    serviceExtract s = (stripList (joinNL ((splitlines s).drop i)), []) ∧
    cliExtract s = stripList (joinNL ((splitlines s).drop i)) := by
  have hed : extractDockerfile s = stripList (joinNL ((splitlines s).drop i)) := by
    unfold extractDockerfile
    rw [fencedSearch_none_of_no_ticks s hB]
    unfold fromFallback linesResult
    rw [hF]
  constructor
  · rw [serviceExtract_none _ hS, hed]
  · rw [cliExtract_none _ hS, extractDockerfile_stripList, hed]

theorem C4_witness :
    serviceExtract (strL "optimized version:\n FROM node:20\nRUN x\n")
      = (stripList (joinNL ((splitlines
          (strL "optimized version:\n FROM node:20\nRUN x\n")).drop 1)), []) ∧
    cliExtract (strL "optimized version:\n FROM node:20\nRUN x\n")
      = stripList (joinNL ((splitlines
          (strL "optimized version:\n FROM node:20\nRUN x\n")).drop 1)) :=
  C4_from_line_fallback (strL "optimized version:\n FROM node:20\nRUN x\n") 1
    (by decide) (by decide) (by decide)

/-- C9: on every raw reply string, the dockerfile text computed by the CLI
extraction equals the dockerfile component computed by the HTTP-service
extraction: the only difference between the two code paths — the CLI strips
the section before parsing also when the delimiter is absent, while the
service parses the raw reply — does not affect the result. -/
theorem C9_cli_service_equivalent (s : Str) :
    cliExtract s = (serviceExtract s).1 :=
  cliExtract_eq_serviceExtract_fst s

theorem extractDockerfile_empty_of (sec : Str)
    (hF : fencedSearch sec = none)
    (hL : firstFromIdx (splitlines sec) = none) :
    extractDockerfile sec = [] := by
  unfold extractDockerfile
  rw [hF]
  unfold fromFallback linesResult
  rw [hL]

/-- C2 (amended): whenever neither the fenced-block pattern matches nor a
FROM line exists in the Dockerfile section, the extracted dockerfile is the
empty string — the unchanged initial value of `dockerfile_content` — not
the raw section.  Both branches of the split are covered: when the
delimiter occurs, the section is the stripped first part (and the summary
is still returned); when it is absent, the section is the whole reply.  In
particular a reply with none of the markers extracts to `("", "")`. -/
theorem C2_amended_no_match_empty (s : Str) :
    (∀ pre post, splitOnce summaryDelim s = some (pre, post) →
      fencedSearch (stripList pre) = none →
      firstFromIdx (splitlines (stripList pre)) = none →
      serviceExtract s = ([], stripList post) ∧ cliExtract s = []) ∧
    (splitOnce summaryDelim s = none →
      fencedSearch s = none →
      firstFromIdx (splitlines s) = none →
      serviceExtract s = ([], []) ∧ cliExtract s = []) := by
  constructor
  · intro pre post hS hF hL
    have hed : extractDockerfile (stripList pre) = [] :=
      extractDockerfile_empty_of _ hF hL
    constructor
    · rw [serviceExtract_some _ _ _ hS, hed]
    · rw [cliExtract_some _ _ _ hS, hed]
  · intro hS hF hL
    have hed : extractDockerfile s = [] := extractDockerfile_empty_of _ hF hL
    constructor
    · rw [serviceExtract_none _ hS, hed]
    · rw [cliExtract_none _ hS, extractDockerfile_stripList, hed]

theorem C2_amended_witness :
    (serviceExtract (strL "nothing to see") = ([], []) ∧
      cliExtract (strL "nothing to see") = []) ∧
    (serviceExtract (strL "plain---SUMMARY---sum")
        = ([], stripList (strL "sum")) ∧
      cliExtract (strL "plain---SUMMARY---sum") = []) :=
  ⟨(C2_amended_no_match_empty (strL "nothing to see")).2
      (by decide) (by decide) (by decide),
   (C2_amended_no_match_empty (strL "plain---SUMMARY---sum")).1
      (strL "plain") (strL "sum") (by decide) (by decide) (by decide)⟩

end DockerOpt
